import Mathlib

/-!
Verification of `celloracle/motif_analysis/process_bed_file.py`.

Python strings are modelled as `List Char`; Python functions that can raise
return `Option`.  The external collaborators (genomepy `Genome`, gimmemotifs
`Fasta`, pybedtools BED parsing) are modelled by their documented interfaces:
the genome store as an association list from chromosome name to sequence, the
sequence collection as parallel id/sequence lists, and a parsed BED table as a
list of rows with optional (possibly missing) cells.
-/

/-- Python strings, modelled as lists of characters. -/
abbrev Str := List Char

/-- Python `s.split("_")`: split a string at every underscore.  The result is always
non-empty; consecutive separators and boundary separators yield empty tokens,
exactly as Python's `str.split` with an explicit separator. -/
def splitUS : Str → List Str
  | [] => [[]]
  | c :: cs =>
    if c = '_' then [] :: splitUS cs
    else (c :: (splitUS cs).headI) :: (splitUS cs).tail

/-- Python `"_".join(tokens)`: interleave the tokens with single underscores. -/
def joinUS : List Str → Str
  | [] => []
  | [t] => t
  | t :: ts => t ++ '_' :: joinUS ts

/-- Source `decompose_chrstr(peak_str)`: `*chr_, start, end = peak_str.split("_")`
followed by `chr_ = "_".join(chr_)`.  The starred unpacking needs at least two
tokens; with fewer, Python raises `ValueError`, modelled by `none`. -/
def decompose_chrstr (peak : Str) : Option (Str × Str × Str) :=
  match (splitUS peak).reverse with
  | e :: s :: chrToks => some (joinUS chrToks.reverse, s, e)
  | _ => none

/-- The join `chr + "_" + start + "_" + end`: the peak-identifier serialisation used by
`peak_M1`, `df_to_list_peakstr` and `read_bed`. -/
def compose (c s e : Str) : Str := c ++ '_' :: s ++ '_' :: e

/-- Decimal value of a digit character, `none` on a non-digit. -/
def digitVal (c : Char) : Option Nat :=
  if c.isDigit then some (c.toNat - 48) else none

/-- Parse a non-empty string of decimal digits. -/
def parseNatDigits (s : Str) : Option Nat :=
  match s with
  | [] => none
  | _ :: _ =>
    s.foldl (fun acc c => acc.bind (fun a => (digitVal c).map (fun d => a * 10 + d)))
      (some 0)

/-- Python `int(token)` on an underscore-free token (also the elementwise
conversion performed by `astype(int)` on a column of such tokens): an optional
sign followed by at least one decimal digit; anything else raises
`ValueError`, modelled by `none`. -/
def parseInt (s : Str) : Option Int :=
  match s with
  | '-' :: ds => (parseNatDigits ds).map (fun n => -(n : Int))
  | '+' :: ds => (parseNatDigits ds).map (fun n => (n : Int))
  | _ => (parseNatDigits s).map (fun n => (n : Int))

/-- Python `str` of a non-negative integer: its decimal digits. -/
def natStr (n : Nat) : Str := Nat.toDigits 10 n

/-- Python `str(i)` for an `int`: decimal digits, with a leading minus sign
for negative values. -/
def intStr (i : Int) : Str :=
  if i < 0 then '-' :: natStr i.natAbs else natStr i.toNat

/-- Source `peak_M1(peak_id)`: decompose, subtract one from the start coordinate,
and re-join with underscores (`chr_ + "_" + str(int(start)-1) + "_" + end`). -/
def peak_M1 (peak : Str) : Option Str :=
  match decompose_chrstr peak with
  | none => none
  | some (c, s, e) =>
    match parseInt s with
    | none => none
    | some n => some (compose c (intStr (n - 1)) e)

/-- Row selection of a pandas `DataFrame` by an aligned boolean mask,
`df[mask]`: keep the rows whose mask entry is `True`. -/
def applyMask : List Str → List Bool → List Str
  | [], _ => []
  | _ :: _, [] => []
  | p :: ps, b :: bs => if b then p :: applyMask ps bs else applyMask ps bs

/-- Pandas `column.astype(int)` on a column of token strings: convert every entry,
raising (modelled by `none`) if any entry is not an integer literal. -/
def astypeInt (col : List Str) : Option (List Int) := col.mapM parseInt

/-- Source `check_peak_format(peaks_df, ref_genome)`: decompose every `peak_id`,
cast the start/end columns to integers, and keep the rows whose interval
length `|end - start|` is at least 5 and whose chromosome name occurs in the
genome's chromosome list.  The genome store is represented by its list of
chromosome names (`all_chr_list`); the table by its `peak_id` column.  Any
decomposition or integer-cast failure propagates (`none`). -/
def check_peak_format (peaks : List Str) (all_chr_list : List Str) :
    Option (List Str) :=
  match peaks.mapM decompose_chrstr with
  | none => none
  | some decomposed =>
    match astypeInt (decomposed.map (fun r => r.2.1)),
          astypeInt (decomposed.map (fun r => r.2.2)) with
    | some starts, some stops =>
      let lengths := (List.zip starts stops).map (fun p => (p.2 - p.1).natAbs)
      let chrNames := decomposed.map (fun r => r.1)
      let mask := (List.zip lengths chrNames).map
        (fun p => decide (5 ≤ p.1) && decide (p.2 ∈ all_chr_list))
      some (applyMask peaks mask)
    | _, _ => none

/-- Fully parse one peak identifier: decompose and read the coordinates. -/
def rowOf (p : Str) : Option (Str × Int × Int) :=
  match decompose_chrstr p with
  | none => none
  | some (c, s, e) =>
    match parseInt s, parseInt e with
    | some si, some ei => some (c, si, ei)
    | _, _ => none

/-- A peak passes the validator's filter: interval length at least 5 and a
chromosome name known to the genome. -/
def goodPeak (all_chr_list : List Str) (p : Str) : Bool :=
  match rowOf p with
  | some (c, si, ei) => decide (5 ≤ (ei - si).natAbs) && decide (c ∈ all_chr_list)
  | none => false

/-- Allocation in the table store: pandas object creation (`copy()`, boolean
selection) appends a fresh table and returns its handle; existing handles are
never written through. -/
def allocTable (store : List (List Str)) (t : List Str) :
    List (List Str) × Nat := (store ++ [t], store.length)

/-- The function `check_peak_format` as it acts on the caller's table store: read the
table at handle `h`, make a copy (`df = peaks_df.copy()`), compute the
filtered table (`df = df[mask]`, a fresh pandas object), allocate it, and
return the new store and the handle of the result. -/
def check_peak_format_st (store : List (List Str)) (h : Nat)
    (all_chr_list : List Str) : Option (List (List Str) × Nat) :=
  match store[h]? with
  | none => none
  | some peaks_df =>
    let copied := allocTable store peaks_df
    match check_peak_format peaks_df all_chr_list with
    | none => none
    | some kept => some (allocTable copied.1 kept)

/-- gimmemotifs `Fasta`: an ordered sequence collection held as parallel
lists of record names (`ids`) and sequences (`seqs`). -/
structure Fasta where
  ids : List Str
  seqs : List Str
deriving DecidableEq

/-- Method `fasta.add(name, seq)`: append one record at the end. -/
def Fasta.add (f : Fasta) (name seq : Str) : Fasta :=
  ⟨f.ids ++ [name], f.seqs ++ [seq]⟩

/-- The loop of `remove_zero_seq`: `for i, seq in enumerate(fasta.seqs)`,
keep truthy (non-empty) sequences, reading the record name as
`fasta.ids[i]`; an out-of-range index raises `IndexError` (`none`). -/
def removeZeroAux (ids : List Str) : List Str → Nat → Fasta → Option Fasta
  | [], _, acc => some acc
  | seq :: restSeqs, i, acc =>
    if seq = [] then removeZeroAux ids restSeqs (i + 1) acc
    else
      match ids[i]? with
      | none => none
      | some name => removeZeroAux ids restSeqs (i + 1) (acc.add name seq)

/-- Source `remove_zero_seq(fasta_object)`: build a fresh collection containing
only the records with a non-empty sequence. -/
def remove_zero_seq (f : Fasta) : Option Fasta :=
  removeZeroAux f.ids f.seqs 0 ⟨[], []⟩

/-- One genomepy slice `genome_data[chrom][start:end]`: the record's name,
the genome-reported start/end of the slice actually retrieved, and its
sequence.  Modelled from the spec: the external store returns the
subsequence over `[start, end)`, clipped at the chromosome boundaries, and
reports the coordinates of the clipped slice. -/
structure GenomeSlice where
  name : Str
  start : Int
  stop : Int
  seq : Str
deriving DecidableEq

/-- The external reference genome, keyed by chromosome name. -/
abbrev GenomeDB := List (Str × Str)

/-- Lookup `genome_data[chromosome_name]`: lookup; an unknown chromosome raises a
`KeyError` that propagates (`none`). -/
def lookupChr : GenomeDB → Str → Option Str
  | [], _ => none
  | (c, q) :: rest, name => if c = name then some q else lookupChr rest name

/-- Slicing `genome_data[chromosome_name][start:end]`, modelled from the spec: slice
clipped to the chromosome's extent, reporting the clipped coordinates. -/
def genomeSlice (g : GenomeDB) (c : Str) (s e : Int) : Option GenomeSlice :=
  match lookupChr g c with
  | none => none
  | some q =>
    let len : Int := q.length
    let s1 := max 0 (min s len)
    let e1 := max 0 (min e len)
    some ⟨c, s1, e1, (q.drop s1.toNat).take (e1 - s1).toNat⟩

/-- The inner `peak2seq` of `peak2fasta`: decompose the identifier, retrieve
the genome slice over `[start, end)`, and name the record
`f"{tmp.name}_{tmp.start}_{tmp.end}"` from the slice's reported fields. -/
def peak2seq (g : GenomeDB) (peak : Str) : Option (Str × Str) :=
  match decompose_chrstr peak with
  | none => none
  | some (c, s, e) =>
    match parseInt s, parseInt e with
    | some si, some ei =>
      match genomeSlice g c si ei with
      | none => none
      | some t => some (compose t.name (intStr t.start) (intStr t.stop), t.seq)
    | _, _ => none

/-- The argument of `peak2fasta`: a single identifier string or a list
(`if type(peak_ids) is str: peak_ids = [peak_ids]`). -/
inductive PeakIds where
  | single : Str → PeakIds
  | many : List Str → PeakIds

/-- The accumulation loop of `peak2fasta`: `fasta.add(name, seq)` for each
identifier in order; any failure propagates. -/
def peak2fastaLoop (g : GenomeDB) : List Str → Fasta → Option Fasta
  | [], f => some f
  | p :: ps, f =>
    match peak2seq g p with
    | none => none
    | some (name, seq) => peak2fastaLoop g ps (f.add name seq)

/-- Source `peak2fasta(peak_ids, ref_genome, genomes_dir)`: wrap a single string
into a one-element list and accumulate the records into a fresh `Fasta`. -/
def peak2fasta (peak_ids : PeakIds) (g : GenomeDB) : Option Fasta :=
  match peak_ids with
  | .single s => peak2fastaLoop g [s] ⟨[], []⟩
  | .many l => peak2fastaLoop g l ⟨[], []⟩

/-- One row of a BED table as parsed by the external reader, with possibly
missing (`NaN`) cells; `rest` holds the remaining columns, if any. -/
structure BedRow where
  chrom : Option Str
  start : Option Int
  stop : Option Int
  rest : List (Option Str)
deriving DecidableEq

/-- The row contains a missing value in some column. -/
def rowHasNa (r : BedRow) : Bool :=
  r.chrom.isNone || r.start.isNone || r.stop.isNone || r.rest.any Option.isNone

/-- The synthesized `seqname` entry:
`tt.chrom + "_" + tt.start.astype("int").astype("str") + "_" + ...`. -/
def seqnameOf (r : BedRow) : Str :=
  compose (r.chrom.getD []) (intStr (r.start.getD 0)) (intStr (r.stop.getD 0))

/-- Source `read_bed(bed_path)` after the external BED parse: `dropna(axis=0)`,
then attach the synthesized peak-identifier column to each remaining row. -/
def read_bed (tt : List BedRow) : List (BedRow × Str) :=
  (tt.filter (fun r => !(rowHasNa r))).map (fun r => (r, seqnameOf r))

/-- The split `splitUS` never returns the empty list of tokens. -/
theorem splitUS_ne_nil (s : Str) : splitUS s ≠ [] := by
  cases s with
  | nil => simp [splitUS]
  | cons c cs =>
    simp only [splitUS]
    by_cases hc : c = '_' <;> simp [hc]

theorem joinUS_cons_of_ne_nil (t : Str) (ts : List Str) (h : ts ≠ []) :
    joinUS (t :: ts) = t ++ '_' :: joinUS ts := by
  cases ts with
  | nil => exact absurd rfl h
  | cons u us => rfl

/-- Joining the tokens of a split restores the original string. -/
theorem joinUS_splitUS (s : Str) : joinUS (splitUS s) = s := by
  induction s with
  | nil => rfl
  | cons c cs ih =>
    rcases h : splitUS cs with _ | ⟨t, ts⟩
    · exact absurd h (splitUS_ne_nil cs)
    · rw [h] at ih
      by_cases hc : c = '_'
      · subst hc
        rw [splitUS, if_pos rfl, h,
            joinUS_cons_of_ne_nil [] (t :: ts) (List.cons_ne_nil t ts),
            List.nil_append, ih]
      · rw [splitUS, if_neg hc, h]
        simp only [List.headI, List.tail]
        cases ts with
        | nil =>
          simp only [joinUS] at ih ⊢
          rw [ih]
        | cons u us =>
          rw [joinUS_cons_of_ne_nil (c :: t) (u :: us) (List.cons_ne_nil u us),
              List.cons_append]
          rw [joinUS_cons_of_ne_nil t (u :: us) (List.cons_ne_nil u us)] at ih
          rw [ih]

/-- Appending two final tokens to a non-empty token list and joining is the
same as joining and then appending the two tokens with underscores. -/
theorem joinUS_append_pair (xs : List Str) (a b : Str) (h : xs ≠ []) :
    joinUS (xs ++ [a, b]) = joinUS xs ++ '_' :: a ++ '_' :: b := by
  induction xs with
  | nil => exact absurd rfl h
  | cons x xs ih =>
    cases xs with
    | nil => simp [joinUS]
    | cons y ys =>
      have h1 : (y :: ys) ++ [a, b] ≠ [] := by simp
      rw [List.cons_append, joinUS_cons_of_ne_nil x ((y :: ys) ++ [a, b]) h1,
          joinUS_cons_of_ne_nil x (y :: ys) (List.cons_ne_nil y ys),
          ih (List.cons_ne_nil y ys)]
      simp

/-- The number of tokens is the number of underscores plus one. -/
theorem splitUS_length (s : Str) : (splitUS s).length = s.count '_' + 1 := by
  induction s with
  | nil => rfl
  | cons c cs ih =>
    rcases h : splitUS cs with _ | ⟨t, ts⟩
    · exact absurd h (splitUS_ne_nil cs)
    · rw [h] at ih
      by_cases hc : c = '_'
      · subst hc
        rw [splitUS, if_pos rfl, h]
        simp only [List.length_cons] at ih ⊢
        rw [List.count_cons_self]
        omega
      · rw [splitUS, if_neg hc, h]
        simp only [List.headI, List.tail, List.length_cons] at ih ⊢
        rw [List.count_cons_of_ne (Ne.symm hc)]
        omega

/-- Unfold `decompose_chrstr` once the reversed token list is known. -/
theorem decompose_chrstr_of_reverse (s : Str) (e st : Str) (rest : List Str)
    (h : (splitUS s).reverse = e :: st :: rest) :
    decompose_chrstr s = some (joinUS rest.reverse, st, e) := by
  unfold decompose_chrstr
  rw [h]

/-- A token list of length at least two has two final tokens. -/
theorem exists_rev_two (s : Str) (h : 2 ≤ (splitUS s).length) :
    ∃ e st rest, (splitUS s).reverse = e :: st :: rest := by
  rcases hr : (splitUS s).reverse with _ | ⟨e, _ | ⟨st, rest⟩⟩
  · have h0 : (splitUS s).length = 0 := by
      rw [← List.length_reverse, hr]
      rfl
    omega
  · have h1 : (splitUS s).length = 1 := by
      rw [← List.length_reverse, hr]
      rfl
    omega
  · exact ⟨e, st, rest, rfl⟩

/-- The original token list, recovered from its reversed head decomposition. -/
theorem tokens_eq_of_reverse (s : Str) (e st : Str) (rest : List Str)
    (h : (splitUS s).reverse = e :: st :: rest) :
    splitUS s = rest.reverse ++ [st, e] := by
  have h2 : (splitUS s).reverse.reverse = (e :: st :: rest).reverse := by rw [h]
  rw [List.reverse_reverse] at h2
  rw [h2, List.reverse_cons, List.reverse_cons, List.append_assoc]
  simp

/-- C2: `decompose_chrstr` splits the identifier on underscores and rejoins
all but the last two tokens into the chromosome name; on
`"chr1_111111_222222"` it yields `("chr1","111111","222222")` and on
`"chr1_random_100_200"` it yields `("chr1_random","100","200")`, preserving
underscores inside chromosome names. -/
theorem decompose_chrstr_splits_last_two :
    (∀ s : Str, 2 ≤ (splitUS s).length →
      decompose_chrstr s =
        some (joinUS ((splitUS s).dropLast.dropLast),
          (splitUS s).getD ((splitUS s).length - 2) [],
          (splitUS s).getD ((splitUS s).length - 1) []))
    ∧ decompose_chrstr (("chr1_111111_222222").toList) =
        some ((("chr1").toList), (("111111").toList), (("222222").toList))
    ∧ decompose_chrstr (("chr1_random_100_200").toList) =
        some ((("chr1_random").toList), (("100").toList), (("200").toList)) := by
  refine ⟨?_, by decide, by decide⟩
  intro s h
  obtain ⟨e, st, rest, hr⟩ := exists_rev_two s h
  have ht := tokens_eq_of_reverse s e st rest hr
  rw [decompose_chrstr_of_reverse s e st rest hr, ht]
  have hdl : (rest.reverse ++ [st, e]).dropLast.dropLast = rest.reverse := by
    have : rest.reverse ++ [st, e] = (rest.reverse ++ [st]) ++ [e] := by
      simp
    rw [this, List.dropLast_concat, List.dropLast_concat]
  have hlen : (rest.reverse ++ [st, e]).length = rest.length + 2 := by
    simp
  rw [hdl, hlen]
  have h1 : (rest.reverse ++ [st, e]).getD (rest.length + 2 - 2) [] = st := by
    rw [List.getD_eq_getElem?_getD, List.getElem?_append_right (by simp)]
    simp
  have h2 : (rest.reverse ++ [st, e]).getD (rest.length + 2 - 1) [] = e := by
    rw [List.getD_eq_getElem?_getD, List.getElem?_append_right (by simp)]
    simp
  rw [h1, h2]

/-- C2 witness: the universally quantified part of
`decompose_chrstr_splits_last_two`, applied at `"chrX_7_9"`. -/
theorem decompose_chrstr_splits_last_two_witness :
    decompose_chrstr (("chrX_7_9").toList) =
      some (joinUS ((splitUS (("chrX_7_9").toList)).dropLast.dropLast),
        (splitUS (("chrX_7_9").toList)).getD
          ((splitUS (("chrX_7_9").toList)).length - 2) [],
        (splitUS (("chrX_7_9").toList)).getD
          ((splitUS (("chrX_7_9").toList)).length - 1) []) :=
  decompose_chrstr_splits_last_two.1 (("chrX_7_9").toList) (by decide)

/-- C3 counterexample: `"100_200"` has only two underscore-delimited tokens
(fewer than three), yet `decompose_chrstr` does not fail: it returns the pair
of coordinates with an empty chromosome name. -/
theorem decompose_chrstr_two_tokens_succeeds :
    (splitUS (("100_200").toList)).length = 2 ∧
    decompose_chrstr (("100_200").toList) =
      some (([]), (("100").toList), (("200").toList)) := by
  exact ⟨by decide, by decide⟩

/-- C3 (amended): `decompose_chrstr` fails (the `ValueError` of the starred
unpacking, modelled by `none`) exactly when the input has fewer than two
underscore-delimited tokens, i.e. contains no underscore at all; with exactly
two tokens it succeeds, returning the empty chromosome name. -/
theorem decompose_chrstr_none_iff :
    ∀ s : Str, decompose_chrstr s = none ↔ (splitUS s).length < 2 := by
  intro s
  constructor
  · intro h
    by_contra hlen
    obtain ⟨e, st, rest, hr⟩ := exists_rev_two s (by omega)
    rw [decompose_chrstr_of_reverse s e st rest hr] at h
    exact Option.noConfusion h
  · intro h
    unfold decompose_chrstr
    rcases hr : (splitUS s).reverse with _ | ⟨e, _ | ⟨st, rest⟩⟩
    · rfl
    · rfl
    · have := congrArg List.length hr
      rw [List.length_reverse] at this
      simp at this
      omega

/-- C4: round trip of the peak-ID codec.  Decomposing a composed identifier
always succeeds, and recomposing the three parts restores the identifier,
for every chromosome string (underscores included) and coordinate strings. -/
theorem compose_decompose_roundtrip :
    ∀ c s e : Str, ∃ d : Str × Str × Str,
      decompose_chrstr (compose c s e) = some d ∧
        compose d.1 d.2.1 d.2.2 = compose c s e := by
  intro c s e
  have hcount : 2 ≤ (compose c s e).count '_' := by
    unfold compose
    rw [List.count_append, List.count_cons_self, List.count_append,
        List.count_cons_self]
    omega
  have hlen : 2 ≤ (splitUS (compose c s e)).length := by
    rw [splitUS_length]
    omega
  obtain ⟨e', st', rest, hr⟩ := exists_rev_two (compose c s e) hlen
  have ht := tokens_eq_of_reverse (compose c s e) e' st' rest hr
  have hrest : rest ≠ [] := by
    intro hnil
    subst hnil
    have h3 : 3 ≤ (splitUS (compose c s e)).length := by
      rw [splitUS_length]
      omega
    have := congrArg List.length hr
    rw [List.length_reverse] at this
    simp at this
    omega
  refine ⟨(joinUS rest.reverse, st', e'),
    decompose_chrstr_of_reverse (compose c s e) e' st' rest hr, ?_⟩
  have hrev : rest.reverse ≠ [] := by
    simpa using hrest
  show compose (joinUS rest.reverse) st' e' = compose c s e
  unfold compose
  rw [← joinUS_append_pair rest.reverse st' e' hrev, ← ht, joinUS_splitUS]
  rfl

/-- C6: `peak_M1` decomposes the identifier, decrements the start coordinate
by one, and recomposes with underscores. -/
theorem peak_M1_decrements_start :
    ∀ (peak c s e : Str) (n : Int),
      decompose_chrstr peak = some (c, s, e) → parseInt s = some n →
      peak_M1 peak = some (compose c (intStr (n - 1)) e) := by
  intro peak c s e n h1 h2
  simp only [peak_M1, h1, h2]

/-- C6 witness: `peak_M1("chr1_100_200") == "chr1_99_200"`. -/
theorem peak_M1_decrements_start_witness :
    decompose_chrstr (("chr1_100_200").toList) =
      some ((("chr1").toList), (("100").toList), (("200").toList)) ∧
    parseInt (("100").toList) = some 100 ∧
    peak_M1 (("chr1_100_200").toList) = some (("chr1_99_200").toList) :=
  ⟨by decide, by decide,
    (peak_M1_decrements_start (("chr1_100_200").toList) (("chr1").toList)
      (("100").toList) (("200").toList) 100 (by decide) (by decide)).trans
      (by decide)⟩

/-- Evaluating `mapM` over `Option` when every element converts. -/
theorem mapM_eq_map_of_isSome {α β : Type} (f : α → Option β) (d : β) :
    ∀ l : List α, (∀ a ∈ l, (f a).isSome) →
      l.mapM f = some (l.map (fun a => (f a).getD d)) := by
  intro l
  induction l with
  | nil => intro _; rfl
  | cons a l ih =>
    intro h
    have ha : (f a).isSome := h a (List.mem_cons_self a l)
    obtain ⟨b, hb⟩ := Option.isSome_iff_exists.mp ha
    have hl := ih (fun x hx => h x (List.mem_cons_of_mem a hx))
    rw [List.mapM_cons, hb, hl]
    simp [hb]

/-- Selecting rows by the mask obtained from a rowwise predicate is `filter`. -/
theorem applyMask_map_filter (f : Str → Bool) :
    ∀ l : List Str, applyMask l (l.map f) = l.filter f := by
  intro l
  induction l with
  | nil => rfl
  | cons p ps ih =>
    simp only [List.map_cons, applyMask, List.filter_cons]
    by_cases hp : f p = true
    · rw [if_pos hp, if_pos hp, ih]
    · rw [if_neg hp, if_neg hp, ih]

/-- Inversion of a successful `rowOf`. -/
theorem rowOf_spec {p : Str} (h : (rowOf p).isSome) :
    ∃ c s e si ei, decompose_chrstr p = some (c, s, e) ∧ parseInt s = some si ∧
      parseInt e = some ei ∧ rowOf p = some (c, si, ei) := by
  unfold rowOf at h ⊢
  cases hd : decompose_chrstr p with
  | none => simp only [hd] at h; simp at h
  | some r =>
    obtain ⟨c, s, e⟩ := r
    simp only [hd] at h ⊢
    cases hs : parseInt s with
    | none => simp only [hs] at h; simp at h
    | some si =>
      cases he : parseInt e with
      | none => simp only [hs, he] at h; simp at h
      | some ei =>
        simp only [hs, he]
        exact ⟨c, s, e, si, ei, rfl, hs, he, rfl⟩

/-- A mask computed pointwise from the rows selects the same rows as a
rowwise filter. -/
theorem applyMask_pointwise (l : List Str) (f g : Str → Bool)
    (hfg : ∀ p ∈ l, f p = g p) : applyMask l (l.map f) = l.filter g := by
  rw [List.map_congr_left hfg, applyMask_map_filter]

/-- C1: on a table whose every `peak_id` decomposes with integer coordinates,
`check_peak_format` returns exactly the rows whose interval length
`|end - start|` is at least 5 and whose chromosome name belongs to the
reference genome's chromosome set, in their original order. -/
theorem check_peak_format_keeps_valid_rows (peaks all_chr_list : List Str)
    (h : ∀ p ∈ peaks, (rowOf p).isSome) :
    check_peak_format peaks all_chr_list =
      some (peaks.filter (goodPeak all_chr_list)) := by
  have hdecSome : ∀ p ∈ peaks, (decompose_chrstr p).isSome := by
    intro p hp
    obtain ⟨c, s, e, si, ei, hd, _, _, _⟩ := rowOf_spec (h p hp)
    rw [hd]
    rfl
  have hmapM := mapM_eq_map_of_isSome decompose_chrstr (([], [], []))
    peaks hdecSome
  have hstarts : ∀ r ∈ (peaks.map
      (fun p => (decompose_chrstr p).getD (([], [], [])))).map (fun r => r.2.1),
      (parseInt r).isSome := by
    intro x hx
    obtain ⟨r, hr, rfl⟩ := List.mem_map.mp hx
    obtain ⟨p, hp, rfl⟩ := List.mem_map.mp hr
    obtain ⟨c, s, e, si, ei, hd, hs, he, _⟩ := rowOf_spec (h p hp)
    simp [hd, hs]
  have hstops : ∀ r ∈ (peaks.map
      (fun p => (decompose_chrstr p).getD (([], [], [])))).map (fun r => r.2.2),
      (parseInt r).isSome := by
    intro x hx
    obtain ⟨r, hr, rfl⟩ := List.mem_map.mp hx
    obtain ⟨p, hp, rfl⟩ := List.mem_map.mp hr
    obtain ⟨c, s, e, si, ei, hd, hs, he, _⟩ := rowOf_spec (h p hp)
    simp [hd, he]
  have hstartsM := mapM_eq_map_of_isSome parseInt 0 _ hstarts
  have hstopsM := mapM_eq_map_of_isSome parseInt 0 _ hstops
  simp only [check_peak_format, astypeInt, hmapM, hstartsM, hstopsM]
  simp only [List.map_map, List.zip_map']
  refine congrArg some (applyMask_pointwise peaks _ _ fun p hp => ?_)
  obtain ⟨c, s, e, si, ei, hd, hs, he, hrow⟩ := rowOf_spec (h p hp)
  simp [goodPeak, hrow, hd, hs, he, Function.comp]

/-- C1 witness: a length-3 peak and a length-10 peak on a known chromosome
plus one peak on an unknown chromosome; only the length-10, known-chromosome
peak is retained. -/
theorem check_peak_format_keeps_valid_rows_witness :
    (∀ p ∈ [(("chr1_10_13").toList), (("chr1_10_20").toList),
        (("chrUn_10_20").toList)], (rowOf p).isSome) ∧
    check_peak_format
        [(("chr1_10_13").toList), (("chr1_10_20").toList),
          (("chrUn_10_20").toList)] [(("chr1").toList)] =
      some [(("chr1_10_20").toList)] :=
  ⟨by decide,
    (check_peak_format_keeps_valid_rows
      [(("chr1_10_13").toList), (("chr1_10_20").toList),
        (("chrUn_10_20").toList)] [(("chr1").toList)] (by decide)).trans
      (by decide)⟩

/-- C9: the validator never mutates the caller's table: after
`check_peak_format` the input handle still holds the original table. -/
theorem check_peak_format_st_preserves_input (store : List (List Str))
    (h : Nat) (all_chr_list : List Str) (t : List Str)
    (ht : store[h]? = some t) (out : List (List Str) × Nat)
    (hout : check_peak_format_st store h all_chr_list = some out) :
    out.1[h]? = some t := by
  have hlt : h < store.length := by
    by_contra hge
    rw [List.getElem?_eq_none (by omega)] at ht
    exact Option.noConfusion ht
  unfold check_peak_format_st at hout
  simp only [ht] at hout
  cases hc : check_peak_format t all_chr_list with
  | none =>
    simp only [hc] at hout
    exact Option.noConfusion hout
  | some kept =>
    simp only [hc, allocTable] at hout
    obtain rfl := (Option.some.inj hout).symm
    show ((store ++ [t]) ++ [kept])[h]? = some t
    rw [List.getElem?_append_left (by simp; omega),
        List.getElem?_append_left hlt]
    exact ht

/-- C9 witness: a one-table store; after validation handle 0 still holds the
original table. -/
theorem check_peak_format_st_preserves_input_witness :
    ([[(("chr1_0_10").toList)]] : List (List Str))[0]? =
        some [(("chr1_0_10").toList)] ∧
    check_peak_format_st [[(("chr1_0_10").toList)]] 0 [(("chr1").toList)] =
      some ([[(("chr1_0_10").toList)], [(("chr1_0_10").toList)],
        [(("chr1_0_10").toList)]], 2) ∧
    ([[(("chr1_0_10").toList)], [(("chr1_0_10").toList)],
        [(("chr1_0_10").toList)]] : List (List Str))[0]? =
      some [(("chr1_0_10").toList)] :=
  ⟨by decide, by decide,
    check_peak_format_st_preserves_input [[(("chr1_0_10").toList)]] 0
      [(("chr1").toList)] [(("chr1_0_10").toList)] (by decide)
      ([[(("chr1_0_10").toList)], [(("chr1_0_10").toList)],
        [(("chr1_0_10").toList)]], 2) (by decide)⟩

/-- Characterisation of the `remove_zero_seq` loop on a balanced suffix. -/
theorem removeZeroAux_spec :
    ∀ (seqs ids : List Str) (i : Nat) (acc : Fasta),
      ids.length = i + seqs.length →
      removeZeroAux ids seqs i acc =
        some ((((ids.drop i).zip seqs).filter
          (fun r => decide (r.2 ≠ []))).foldl (fun a r => a.add r.1 r.2) acc) := by
  intro seqs
  induction seqs with
  | nil =>
    intro ids i acc h
    simp [removeZeroAux, List.zip_nil_right]
  | cons seq restSeqs ih =>
    intro ids i acc h
    have hlt : i < ids.length := by
      simp only [List.length_cons] at h
      omega
    have hdrop : ids.drop i = ids[i] :: ids.drop (i + 1) :=
      List.drop_eq_getElem_cons hlt
    have hget : ids[i]? = some ids[i] := List.getElem?_eq_getElem hlt
    have hlen1 : ids.length = (i + 1) + restSeqs.length := by
      simp only [List.length_cons] at h
      omega
    simp only [removeZeroAux]
    by_cases hz : seq = []
    · subst hz
      rw [if_pos rfl, ih ids (i + 1) acc hlen1, hdrop, List.zip_cons_cons,
          List.filter_cons]
      simp
    · rw [if_neg hz]
      simp only [hget]
      rw [ih ids (i + 1) (acc.add ids[i] seq) hlen1, hdrop, List.zip_cons_cons,
          List.filter_cons]
      simp [hz]

/-- Folding `Fasta.add` over a pair list appends the two projections. -/
theorem foldl_add_eq (pairs : List (Str × Str)) :
    ∀ acc : Fasta,
      pairs.foldl (fun a r => a.add r.1 r.2) acc =
        ⟨acc.ids ++ pairs.map Prod.fst, acc.seqs ++ pairs.map Prod.snd⟩ := by
  induction pairs with
  | nil => intro acc; simp
  | cons r rest ih =>
    intro acc
    rw [List.foldl_cons, ih]
    simp [Fasta.add]

/-- C7: on a well-formed collection (equally many names and sequences),
`remove_zero_seq` keeps exactly the records with a non-empty sequence, in
their original order, each paired with its original name. -/
theorem remove_zero_seq_filters (f : Fasta)
    (hlen : f.ids.length = f.seqs.length) :
    remove_zero_seq f =
      some ⟨((f.ids.zip f.seqs).filter (fun r => decide (r.2 ≠ []))).map Prod.fst,
        ((f.ids.zip f.seqs).filter (fun r => decide (r.2 ≠ []))).map Prod.snd⟩ := by
  unfold remove_zero_seq
  rw [removeZeroAux_spec f.seqs f.ids 0 ⟨[], []⟩ (by omega), foldl_add_eq,
      List.drop_zero]
  simp

/-- C7 witness: sequences `["ACGT","","GG"]` with names `["p1","p2","p3"]`;
the output holds only the two non-empty entries with their names, in order. -/
theorem remove_zero_seq_filters_witness :
    ((⟨[(("p1").toList), (("p2").toList), (("p3").toList)],
        [(("ACGT").toList), (("").toList), (("GG").toList)]⟩ : Fasta)).ids.length =
      ((⟨[(("p1").toList), (("p2").toList), (("p3").toList)],
        [(("ACGT").toList), (("").toList), (("GG").toList)]⟩ : Fasta)).seqs.length ∧
    remove_zero_seq
        ⟨[(("p1").toList), (("p2").toList), (("p3").toList)],
          [(("ACGT").toList), (("").toList), (("GG").toList)]⟩ =
      some ⟨[(("p1").toList), (("p3").toList)],
        [(("ACGT").toList), (("GG").toList)]⟩ :=
  ⟨by decide,
    (remove_zero_seq_filters
      ⟨[(("p1").toList), (("p2").toList), (("p3").toList)],
        [(("ACGT").toList), (("").toList), (("GG").toList)]⟩ (by decide)).trans
      (by decide)⟩

/-- A successful run of the loop keeps the collection balanced. -/
theorem removeZeroAux_balanced :
    ∀ (seqs ids : List Str) (i : Nat) (acc g : Fasta),
      removeZeroAux ids seqs i acc = some g →
      acc.ids.length = acc.seqs.length → g.ids.length = g.seqs.length := by
  intro seqs
  induction seqs with
  | nil =>
    intro ids i acc g hg hacc
    simp only [removeZeroAux] at hg
    obtain rfl := Option.some.inj hg
    exact hacc
  | cons seq restSeqs ih =>
    intro ids i acc g hg hacc
    simp only [removeZeroAux] at hg
    by_cases hz : seq = []
    · rw [if_pos hz] at hg
      exact ih ids (i + 1) acc g hg hacc
    · rw [if_neg hz] at hg
      cases hget : ids[i]? with
      | none =>
        simp only [hget] at hg
        exact Option.noConfusion hg
      | some name =>
        simp only [hget] at hg
        exact ih ids (i + 1) (acc.add name seq) g hg (by simp [Fasta.add, hacc])

/-- A successful run of the loop only records non-empty sequences. -/
theorem removeZeroAux_no_empty :
    ∀ (seqs ids : List Str) (i : Nat) (acc g : Fasta),
      removeZeroAux ids seqs i acc = some g →
      (∀ s ∈ acc.seqs, s ≠ []) → ∀ s ∈ g.seqs, s ≠ [] := by
  intro seqs
  induction seqs with
  | nil =>
    intro ids i acc g hg hacc
    simp only [removeZeroAux] at hg
    obtain rfl := Option.some.inj hg
    exact hacc
  | cons seq restSeqs ih =>
    intro ids i acc g hg hacc
    simp only [removeZeroAux] at hg
    by_cases hz : seq = []
    · rw [if_pos hz] at hg
      exact ih ids (i + 1) acc g hg hacc
    · rw [if_neg hz] at hg
      cases hget : ids[i]? with
      | none =>
        simp only [hget] at hg
        exact Option.noConfusion hg
      | some name =>
        simp only [hget] at hg
        refine ih ids (i + 1) (acc.add name seq) g hg ?_
        intro s hs
        simp only [Fasta.add, List.mem_append, List.mem_singleton] at hs
        rcases hs with hs | rfl
        · exact hacc s hs
        · exact hz

/-- A balanced collection whose sequences are all non-empty is a fixed point
of `remove_zero_seq`. -/
theorem remove_zero_seq_fix (g : Fasta)
    (hlen : g.ids.length = g.seqs.length) (hne : ∀ s ∈ g.seqs, s ≠ []) :
    remove_zero_seq g = some g := by
  unfold remove_zero_seq
  rw [removeZeroAux_spec g.seqs g.ids 0 ⟨[], []⟩ (by omega), foldl_add_eq,
      List.drop_zero]
  have hfilter : (g.ids.zip g.seqs).filter (fun r => decide (r.2 ≠ [])) =
      g.ids.zip g.seqs := by
    rw [List.filter_eq_self]
    intro r hr
    have hmem := (List.of_mem_zip (a := r.1) (b := r.2) (by simpa using hr)).2
    simpa using hne r.2 hmem
  rw [hfilter, List.map_fst_zip _ _ (le_of_eq hlen),
      List.map_snd_zip _ _ (le_of_eq hlen.symm)]
  simp

/-- C10: `remove_zero_seq` is idempotent: running it on its own (successful)
output changes nothing, since every surviving record already has a non-empty
sequence. -/
theorem remove_zero_seq_idempotent (f : Fasta) :
    (remove_zero_seq f).bind remove_zero_seq = remove_zero_seq f := by
  cases hg : remove_zero_seq f with
  | none => rfl
  | some g =>
    rw [Option.some_bind]
    have hbal : g.ids.length = g.seqs.length :=
      removeZeroAux_balanced f.seqs f.ids 0 ⟨[], []⟩ g hg rfl
    have hne : ∀ s ∈ g.seqs, s ≠ [] :=
      removeZeroAux_no_empty f.seqs f.ids 0 ⟨[], []⟩ g hg
        (by intro s hs; simp at hs)
    exact remove_zero_seq_fix g hbal hne

/-- The `peak2fasta` accumulation loop appends one record per identifier,
in input order, when every identifier resolves. -/
theorem peak2fastaLoop_spec (g : GenomeDB) :
    ∀ (l : List Str) (acc : Fasta),
      (∀ p ∈ l, (peak2seq g p).isSome) →
      peak2fastaLoop g l acc =
        some ⟨acc.ids ++ l.map (fun p => ((peak2seq g p).getD ([], [])).1),
          acc.seqs ++ l.map (fun p => ((peak2seq g p).getD ([], [])).2)⟩ := by
  intro l
  induction l with
  | nil =>
    intro acc _
    simp [peak2fastaLoop]
  | cons p ps ih =>
    intro acc h
    obtain ⟨⟨name, sq⟩, hr⟩ :=
      Option.isSome_iff_exists.mp (h p (List.mem_cons_self p ps))
    simp only [peak2fastaLoop, hr]
    rw [ih (acc.add name sq) (fun q hq => h q (List.mem_cons_of_mem p hq))]
    simp [Fasta.add, hr]

/-- C5: `peak2fasta` accepts a single identifier as a one-element list; on a
list whose identifiers all resolve, it returns one record per identifier in
the same order, named and sequenced by the genome slice retrieved for that
identifier (`peak2seq`: name from the genome-reported clipped coordinates,
sequence over `[start, end)`). -/
theorem peak2fasta_order_and_names (g : GenomeDB) :
    (∀ l : List Str, (∀ p ∈ l, (peak2seq g p).isSome) →
      peak2fasta (.many l) g =
        some ⟨l.map (fun p => ((peak2seq g p).getD ([], [])).1),
          l.map (fun p => ((peak2seq g p).getD ([], [])).2)⟩)
    ∧ ∀ s : Str, peak2fasta (.single s) g = peak2fasta (.many [s]) g := by
  constructor
  · intro l h
    show peak2fastaLoop g l ⟨[], []⟩ = _
    rw [peak2fastaLoop_spec g l ⟨[], []⟩ h]
    simp
  · intro s
    rfl

/-- C5 witness: a ten-base chromosome `chr1 = "ACGTACGTAC"`; the query
`chr1_8_15` is clipped to `[8, 10)` and renamed accordingly, and records come
back in input order. -/
theorem peak2fasta_order_and_names_witness :
    (∀ p ∈ [(("chr1_2_6").toList), (("chr1_8_15").toList)],
      (peak2seq [((("chr1").toList), (("ACGTACGTAC").toList))] p).isSome) ∧
    peak2fasta (.many [(("chr1_2_6").toList), (("chr1_8_15").toList)])
        [((("chr1").toList), (("ACGTACGTAC").toList))] =
      some ⟨[(("chr1_2_6").toList), (("chr1_8_10").toList)],
        [(("GTAC").toList), (("AC").toList)]⟩ :=
  ⟨by decide,
    ((peak2fasta_order_and_names
        [((("chr1").toList), (("ACGTACGTAC").toList))]).1
      [(("chr1_2_6").toList), (("chr1_8_15").toList)] (by decide)).trans
      (by decide)⟩

/-- C8: `read_bed` drops every row with a missing value and gives each
surviving row a synthesized peak identifier `chrom_start_end` built from its
own fields. -/
theorem read_bed_drops_na_and_names (tt : List BedRow) :
    (read_bed tt).map Prod.fst = tt.filter (fun r => !(rowHasNa r)) ∧
    ∀ pr ∈ read_bed tt, rowHasNa pr.1 = false ∧ ∃ c s e,
      pr.1.chrom = some c ∧ pr.1.start = some s ∧ pr.1.stop = some e ∧
      pr.2 = compose c (intStr s) (intStr e) := by
  constructor
  · unfold read_bed
    rw [List.map_map]
    have hid : (Prod.fst ∘ fun r : BedRow => (r, seqnameOf r)) = fun r => r := rfl
    rw [hid]
    simp
  · intro pr hpr
    unfold read_bed at hpr
    obtain ⟨r, hr, rfl⟩ := List.mem_map.mp hpr
    have hna : rowHasNa r = false := by
      have := List.of_mem_filter hr
      simpa using this
    refine ⟨hna, ?_⟩
    have hna2 := hna
    unfold rowHasNa at hna2
    rw [Bool.or_eq_false_iff, Bool.or_eq_false_iff, Bool.or_eq_false_iff]
      at hna2
    obtain ⟨⟨⟨hc0, hs0⟩, he0⟩, _⟩ := hna2
    cases hc : r.chrom with
    | none => rw [hc] at hc0; exact absurd hc0 (by simp)
    | some c =>
      cases hs : r.start with
      | none => rw [hs] at hs0; exact absurd hs0 (by simp)
      | some s =>
        cases he : r.stop with
        | none => rw [he] at he0; exact absurd he0 (by simp)
        | some e =>
          exact ⟨c, s, e, rfl, rfl, rfl, by simp [seqnameOf, hc, hs, he]⟩

/-- C8 witness: a table with one complete row and one row missing its start
coordinate; only the complete row survives, with `seqname = "chr1_10_20"`. -/
theorem read_bed_drops_na_and_names_witness :
    ((⟨some (("chr1").toList), some 10, some 20, []⟩ : BedRow),
        (("chr1_10_20").toList)) ∈
      read_bed [⟨some (("chr1").toList), some 10, some 20, []⟩,
        ⟨some (("chr2").toList), none, some 30, []⟩] ∧
    (rowHasNa (⟨some (("chr1").toList), some 10, some 20, []⟩ : BedRow) = false ∧
      ∃ c s e,
        (⟨some (("chr1").toList), some 10, some 20, []⟩ : BedRow).chrom = some c ∧
        (⟨some (("chr1").toList), some 10, some 20, []⟩ : BedRow).start = some s ∧
        (⟨some (("chr1").toList), some 10, some 20, []⟩ : BedRow).stop = some e ∧
        (("chr1_10_20").toList) = compose c (intStr s) (intStr e)) :=
  ⟨by decide,
    (read_bed_drops_na_and_names
        [⟨some (("chr1").toList), some 10, some 20, []⟩,
          ⟨some (("chr2").toList), none, some 30, []⟩]).2
      ((⟨some (("chr1").toList), some 10, some 20, []⟩ : BedRow),
        (("chr1_10_20").toList)) (by decide)⟩
